import Mathlib

/-!
Verification of the news pipeline in `src/logic.py` of Inform-Me-Bot:
fetch → dedupe → recency filter → cluster → format.  Python strings are
embedded as `List Char` (Python `len` counts code points, as does
`List.length`); feed entries are records; the network fetch and the
third-party similarity backends (sentence-transformers / scikit-learn)
are oracle parameters or spec-modelled definitions, as noted on each
definition.
-/

set_option maxRecDepth 10000

/-- A parsed feed entry as `feedparser` hands it to the pipeline.
A missing `link` is the empty string (the code reads `entry.get("link", "")`);
`published_parsed` is `none` when the entry has no parsable publish time,
otherwise the UTC timestamp in seconds; `source` is `none` when the feed
gives no source title (the code reads `entry.get("source", {}).get("title",
"Unknown")`). -/
structure Entry where
  title : List Char
  link : List Char
  published : List Char
  published_parsed : Option Int
  source : Option (List Char)
deriving DecidableEq, Inhabited

/-- One step of the dedup loop of `fetch_recent_news` (logic.py lines 29-33):
state is (seen_links, feeds); an entry is appended only when its link is
non-empty and unseen. -/
def fetchStep (st : List (List Char) × List Entry) (entry : Entry) :
    List (List Char) × List Entry :=
  if entry.link ≠ [] ∧ entry.link ∉ st.1 then (entry.link :: st.1, st.2 ++ [entry])
  else st

/-- `fetch_recent_news` (logic.py lines 22-35).  The network call
`fetch_rss_news` (lines 15-19) is an oracle `rss` taking (topic, location,
language); the code queries (location, language), ("US", language),
(location, "en") in that order and deduplicates by link, first occurrence
winning. -/
def fetch_recent_news (rss : List Char → List Char → List Char → List Entry)
    (topic location language : List Char) : List Entry :=
  (([(location, language), ("US".data, language), (location, "en".data)]).foldl
    (fun st p => (rss topic p.1 p.2).foldl fetchStep st) ([], [])).2

/-- The link-dedup pass, written as a recursion on the merged entry list:
entries with an empty or already-seen link are dropped. -/
def dedupFrom (seen : List (List Char)) : List Entry → List Entry
  | [] => []
  | e :: rest =>
    if e.link ≠ [] ∧ e.link ∉ seen then e :: dedupFrom (e.link :: seen) rest
    else dedupFrom seen rest

/-- The seen-links set after the dedup pass over a list. -/
def seenAfter (seen : List (List Char)) : List Entry → List (List Char)
  | [] => seen
  | e :: rest =>
    if e.link ≠ [] ∧ e.link ∉ seen then seenAfter (e.link :: seen) rest
    else seenAfter seen rest

theorem foldl_fetchStep (l : List Entry) :
    ∀ seen acc, l.foldl fetchStep (seen, acc) = (seenAfter seen l, acc ++ dedupFrom seen l) := by
  induction l with
  | nil => intro seen acc; simp [seenAfter, dedupFrom]
  | cons e rest ih =>
    intro seen acc
    by_cases h : e.link ≠ [] ∧ e.link ∉ seen
    · simp [fetchStep, h, seenAfter, dedupFrom, ih]
    · simp [fetchStep, h, seenAfter, dedupFrom, ih]

theorem dedupFrom_append (a : List Entry) :
    ∀ b seen, dedupFrom seen (a ++ b) = dedupFrom seen a ++ dedupFrom (seenAfter seen a) b := by
  induction a with
  | nil => intro b seen; simp [dedupFrom, seenAfter]
  | cons e rest ih =>
    intro b seen
    by_cases h : e.link ≠ [] ∧ e.link ∉ seen
    · simp [dedupFrom, seenAfter, h, ih]
    · simp [dedupFrom, seenAfter, h, ih]

/-- `fetch_recent_news` is the link-dedup pass over the three query results
merged in query order. -/
theorem fetch_recent_news_eq_dedup (rss : List Char → List Char → List Char → List Entry)
    (topic location language : List Char) :
    fetch_recent_news rss topic location language
      = dedupFrom [] (rss topic location language ++ rss topic ("US".data) language
          ++ rss topic location ("en".data)) := by
  simp only [fetch_recent_news, List.foldl_cons, List.foldl_nil]
  rw [foldl_fetchStep, foldl_fetchStep, foldl_fetchStep]
  simp [dedupFrom_append, List.append_assoc]

theorem dedupFrom_sublist (l : List Entry) : ∀ seen, (dedupFrom seen l).Sublist l := by
  induction l with
  | nil => intro seen; simp [dedupFrom]
  | cons e rest ih =>
    intro seen
    by_cases h : e.link ≠ [] ∧ e.link ∉ seen
    · simpa [dedupFrom, h] using (ih (e.link :: seen)).cons₂ e
    · simpa [dedupFrom, h] using (ih seen).cons e

theorem dedupFrom_link_not_seen (l : List Entry) :
    ∀ seen e, e ∈ dedupFrom seen l → e.link ≠ [] ∧ e.link ∉ seen := by
  induction l with
  | nil => intro seen e he; simp [dedupFrom] at he
  | cons a rest ih =>
    intro seen e he
    by_cases h : a.link ≠ [] ∧ a.link ∉ seen
    · simp only [dedupFrom, if_pos h, List.mem_cons] at he
      rcases he with rfl | he
      · exact h
      · have := ih _ _ he
        exact ⟨this.1, fun hm => this.2 (List.mem_cons_of_mem _ hm)⟩
    · simp only [dedupFrom, if_neg h] at he
      exact ih _ _ he

theorem dedupFrom_links_nodup (l : List Entry) :
    ∀ seen, ((dedupFrom seen l).map Entry.link).Nodup := by
  induction l with
  | nil => intro seen; simp [dedupFrom]
  | cons a rest ih =>
    intro seen
    by_cases h : a.link ≠ [] ∧ a.link ∉ seen
    · simp only [dedupFrom, if_pos h, List.map_cons, List.nodup_cons]
      refine ⟨?_, ih _⟩
      intro hm
      rcases List.mem_map.mp hm with ⟨e, he, hlink⟩
      exact (dedupFrom_link_not_seen rest _ e he).2 (hlink ▸ List.mem_cons_self _ _)
    · simp only [dedupFrom, if_neg h]
      exact ih _

theorem dedupFrom_filter_of_seen (l : List Entry) (lnk : List Char) :
    ∀ seen, lnk ∈ seen →
      (dedupFrom seen l).filter (fun e => decide (e.link = lnk)) = [] := by
  induction l with
  | nil => intro seen _; simp [dedupFrom]
  | cons a rest ih =>
    intro seen hs
    by_cases h : a.link ≠ [] ∧ a.link ∉ seen
    · have hne : ¬ a.link = lnk := fun hq => h.2 (hq ▸ hs)
      simp only [dedupFrom, if_pos h, List.filter_cons, decide_eq_true_eq, hne, if_false]
      exact ih _ (List.mem_cons_of_mem _ hs)
    · simp only [dedupFrom, if_neg h]
      exact ih _ hs

theorem dedupFrom_filter_of_not_seen (l : List Entry) (lnk : List Char) (hl : lnk ≠ []) :
    ∀ seen, lnk ∉ seen →
      (dedupFrom seen l).filter (fun e => decide (e.link = lnk))
        = (l.filter (fun e => decide (e.link = lnk))).take 1 := by
  induction l with
  | nil => intro seen _; simp [dedupFrom]
  | cons a rest ih =>
    intro seen hs
    by_cases h : a.link ≠ [] ∧ a.link ∉ seen
    · by_cases hq : a.link = lnk
      · have hd : dedupFrom seen (a :: rest) = a :: dedupFrom (a.link :: seen) rest := by
          simp only [dedupFrom, if_pos h]
        have hz : (dedupFrom (a.link :: seen) rest).filter (fun e => decide (e.link = lnk)) = [] := by
          rw [hq]
          exact dedupFrom_filter_of_seen rest lnk _ (List.mem_cons_self _ _)
        rw [hd, List.filter_cons, List.filter_cons]
        simp [hq, hz]
        intro b hb hbl
        exact (dedupFrom_link_not_seen rest _ b hb).2 (by rw [hbl]; exact List.mem_cons_self _ _)
      · simp only [dedupFrom, if_pos h, List.filter_cons, decide_eq_true_eq, hq, if_false]
        exact ih _ (by
          intro hm
          rcases List.mem_cons.mp hm with h1 | h1
          · exact hq h1.symm
          · exact hs h1)
    · have hq : ¬ a.link = lnk := by
        intro hq
        rcases not_and_or.mp h with h1 | h1
        · exact hl (hq ▸ (not_not.mp h1))
        · exact hs (hq ▸ (not_not.mp h1))
      simp only [dedupFrom, if_neg h, List.filter_cons, decide_eq_true_eq, hq, if_false]
      exact ih _ hs

/-- C4: `fetch_recent_news` merges the three query results in query order
(the output is a sublist of the merged list), and for every non-empty link
it returns exactly the first merged entry carrying that link: its
link-filtered output is the first element of the link-filtered merged list. -/
theorem fetch_recent_news_dedup (rss : List Char → List Char → List Char → List Entry)
    (topic location language lnk : List Char) (hl : lnk ≠ []) :
    (fetch_recent_news rss topic location language).Sublist
        (rss topic location language ++ rss topic ("US".data) language
          ++ rss topic location ("en".data))
    ∧ (fetch_recent_news rss topic location language).filter (fun e => decide (e.link = lnk))
        = ((rss topic location language ++ rss topic ("US".data) language
            ++ rss topic location ("en".data)).filter (fun e => decide (e.link = lnk))).take 1 := by
  rw [fetch_recent_news_eq_dedup]
  exact ⟨dedupFrom_sublist _ _,
    dedupFrom_filter_of_not_seen _ lnk hl [] (List.not_mem_nil lnk)⟩

/-- A concrete feed oracle: the first query returns two entries sharing the
link "x" with different titles plus a linkless entry, the second query
returns another entry with link "x" and one with link "y", the third
nothing. -/
def wRss : List Char → List Char → List Char → List Entry :=
  fun _ loc lang =>
    if loc = "IT".data ∧ lang = "it".data then
      [⟨"a".data, "x".data, [], none, none⟩,
       ⟨"b".data, "x".data, [], none, none⟩,
       ⟨"c".data, [], [], none, none⟩]
    else if loc = "US".data ∧ lang = "it".data then
      [⟨"d".data, "x".data, [], none, none⟩,
       ⟨"e".data, "y".data, [], none, none⟩]
    else []

/-- C4 witness: at the concrete oracle `wRss`, the dedup keeps exactly the
first entry with link "x". -/
theorem fetch_recent_news_dedup_case :
    (fetch_recent_news wRss "t".data "IT".data "it".data).Sublist
        (wRss "t".data "IT".data "it".data ++ wRss "t".data ("US".data) "it".data
          ++ wRss "t".data "IT".data ("en".data))
    ∧ (fetch_recent_news wRss "t".data "IT".data "it".data).filter
          (fun e => decide (e.link = "x".data))
        = ((wRss "t".data "IT".data "it".data ++ wRss "t".data ("US".data) "it".data
            ++ wRss "t".data "IT".data ("en".data)).filter
              (fun e => decide (e.link = "x".data))).take 1 :=
  fetch_recent_news_dedup wRss "t".data "IT".data "it".data "x".data (by decide)

/-- C10: every entry returned by `fetch_recent_news` has a non-empty link
(entries whose link is missing or empty are silently dropped, deduplicated
or not), and the returned links are pairwise distinct. -/
theorem fetch_recent_news_links (rss : List Char → List Char → List Char → List Entry)
    (topic location language : List Char) :
    (∀ e ∈ fetch_recent_news rss topic location language, e.link ≠ [])
    ∧ ((fetch_recent_news rss topic location language).map Entry.link).Nodup := by
  rw [fetch_recent_news_eq_dedup]
  exact ⟨fun e he => (dedupFrom_link_not_seen _ [] e he).1, dedupFrom_links_nodup _ []⟩

/-- `filter_recent_news` (logic.py lines 276-285).  Time is in UTC seconds
since the epoch; `now` is a parameter (the code takes
`datetime.now(timezone.utc)`); the cutoff is `now` minus two days, and an
entry passes only when it has a parsable publish time strictly after the
cutoff. -/
def filter_recent_news (now : Int) (feeds : List Entry) : List Entry :=
  let two_days_ago := now - 2 * 86400
  feeds.filter (fun e =>
    match e.published_parsed with
    | some t => decide (two_days_ago < t)
    | none => false)

/-- C3: the recency filter keeps the input order (its output is a sublist
of the input), an entry is in the output iff it is an input entry whose
parsable publish time is strictly after `now` minus 48 hours, and entries
without a parsable publish time never appear in the output. -/
theorem filter_recent_news_spec (now : Int) (feeds : List Entry) :
    (filter_recent_news now feeds).Sublist feeds
    ∧ (∀ e, e ∈ filter_recent_news now feeds
        ↔ e ∈ feeds ∧ ∃ t, e.published_parsed = some t ∧ now - 48 * 3600 < t)
    ∧ (∀ e ∈ feeds, e.published_parsed = none → e ∉ filter_recent_news now feeds) := by
  refine ⟨List.filter_sublist _, fun e => ?_, ?_⟩
  · simp only [filter_recent_news, List.mem_filter]
    constructor
    · rintro ⟨hm, hp⟩
      rcases ht : e.published_parsed with _ | t
      · rw [ht] at hp; simp at hp
      · rw [ht] at hp
        simp only [decide_eq_true_eq] at hp
        exact ⟨hm, t, rfl, by omega⟩
    · rintro ⟨hm, t, ht, hlt⟩
      refine ⟨hm, ?_⟩
      rw [ht]
      simp only [decide_eq_true_eq]
      omega
  · intro e _ hn hmem
    simp only [filter_recent_news, List.mem_filter, hn] at hmem
    exact Bool.false_ne_true hmem.2

/-- The MarkdownV2 reserved characters of `escape_markdown_v2`
(logic.py lines 137-156), in the code's order. -/
def special_chars : List Char :=
  ['_', '*', '[', ']', '(', ')', '~', '\x60', '>', '#', '+', '-', '=', '|',
   '\x7b', '\x7d', '.', '!']

/-- Python `text.replace(c, "\\" + c)` for a one-character pattern `c`:
every occurrence of `c` becomes backslash followed by `c`. -/
def replaceEsc (c : Char) (s : List Char) : List Char :=
  s.flatMap (fun x => if x = c then ['\\', x] else [x])

/-- `escape_markdown_v2` (logic.py lines 134-161): the replacements are run
sequentially, one reserved character at a time, in the order of
`special_chars`. -/
def escape_markdown_v2 (text : List Char) : List Char :=
  special_chars.foldl (fun t c => replaceEsc c t) text

/-- One-pass escaping over an arbitrary reserved list. -/
def escWith (L : List Char) (s : List Char) : List Char :=
  s.flatMap (fun x => if x ∈ L then ['\\', x] else [x])

theorem foldl_replaceEsc (L : List Char) (hnd : L.Nodup) (hb : '\\' ∉ L) :
    ∀ s, L.foldl (fun t c => replaceEsc c t) s = escWith L s := by
  induction L with
  | nil =>
    intro s
    simp only [List.foldl_nil, escWith, List.mem_nil_iff, if_neg (fun h => h)]
    simp
  | cons c rest ih =>
    intro s
    have hrest : rest.Nodup := (List.nodup_cons.mp hnd).2
    have hcr : c ∉ rest := (List.nodup_cons.mp hnd).1
    have hbr : '\\' ∉ rest := fun h => hb (List.mem_cons_of_mem _ h)
    have hbc : ('\\' : Char) ≠ c := fun h => hb (h ▸ List.mem_cons_self _ _)
    rw [List.foldl_cons, ih hrest hbr]
    simp only [escWith, replaceEsc, List.flatMap_assoc]
    congr 1
    funext x
    by_cases hx : x = c
    · subst hx
      simp only [if_pos rfl, List.flatMap_cons, List.flatMap_nil,
        if_neg hbc, if_neg hcr, List.mem_cons, true_or, if_pos trivial]
      simp [List.flatMap, if_neg hbr, if_neg hcr]
    · simp only [if_neg hx, List.flatMap_cons, List.flatMap_nil, List.append_nil,
        List.mem_cons]
      by_cases hxr : x ∈ rest
      · simp [hxr]
      · simp [hxr, hx]

/-- Whether a character is in the MarkdownV2 reserved set. -/
def isReserved (c : Char) : Bool := decide (c ∈ special_chars)

/-- Scanning with the previous character at hand: every reserved character
must be immediately preceded by a backslash. -/
def noBareFrom (prev : Char) : List Char → Bool
  | [] => true
  | x :: rest => (!(isReserved x) || (prev == '\\')) && noBareFrom x rest

/-- No reserved character of the string stands without a backslash
immediately before it (in particular none in first position). -/
def noBareReserved : List Char → Bool
  | [] => true
  | x :: rest => !(isReserved x) && noBareFrom x rest

theorem noBareFrom_escWith (s : List Char) :
    ∀ prev, noBareFrom prev (escWith special_chars s) = true := by
  induction s with
  | nil => intro prev; simp [escWith, noBareFrom]
  | cons x rest ih =>
    intro prev
    by_cases hx : x ∈ special_chars
    · simp only [escWith, List.flatMap_cons, if_pos hx, List.cons_append, List.append_nil]
      show noBareFrom prev ('\\' :: x :: escWith special_chars rest) = true
      simp only [noBareFrom, ih]
      simp [isReserved, special_chars]
    · simp only [escWith, List.flatMap_cons, if_neg hx, List.cons_append, List.append_nil]
      show noBareFrom prev (x :: escWith special_chars rest) = true
      simp only [noBareFrom, ih]
      simp [isReserved, hx]

/-- C2 (amended): in the output of `escape_markdown_v2` every reserved
character is immediately preceded by a backslash — none stands bare.  (The
second half of the claim, idempotence of the escaping, is false: see the
counterexample theorem.) -/
theorem escape_markdown_v2_no_bare_reserved (text : List Char) :
    noBareReserved (escape_markdown_v2 text) = true := by
  rw [show escape_markdown_v2 text = escWith special_chars text from
    foldl_replaceEsc special_chars (by decide) (by decide) text]
  cases text with
  | nil => simp [escWith, noBareReserved]
  | cons x rest =>
    by_cases hx : x ∈ special_chars
    · simp only [escWith, List.flatMap_cons, if_pos hx, List.cons_append, List.append_nil]
      show noBareReserved ('\\' :: x :: escWith special_chars rest) = true
      simp only [noBareReserved, noBareFrom, noBareFrom_escWith]
      simp [isReserved, special_chars]
    · simp only [escWith, List.flatMap_cons, if_neg hx, List.cons_append, List.append_nil]
      show noBareReserved (x :: escWith special_chars rest) = true
      simp only [noBareReserved, noBareFrom_escWith]
      simp [isReserved, hx]

/-- C2 counterexample: escaping is not idempotent.  On the one-character
string "." the first pass yields backslash-dot, and a second pass escapes
the dot again, so re-escaping already-escaped text double-escapes. -/
theorem escape_markdown_v2_not_idempotent :
    escape_markdown_v2 (escape_markdown_v2 ".".data) ≠ escape_markdown_v2 ".".data := by
  decide

/-- The per-article record the clustering step builds (logic.py lines
74-79 / 123-128): title, link, published, and source with the "Unknown"
default already applied. -/
structure ClusterInfo where
  title : List Char
  link : List Char
  published : List Char
  source : List Char
deriving DecidableEq, Inhabited

/-- Python `str.strip()`: whitespace removed from both ends. -/
def pyStrip (s : List Char) : List Char :=
  ((s.dropWhile Char.isWhitespace).reverse.dropWhile Char.isWhitespace).reverse

/-- One article line pair of the formatter (logic.py lines 198-211 and
233-241): a bulleted escaped title (truncated to 100) linked to the
stripped URL, then a via-source line (source truncated to 30, escaped). -/
def renderArticle (a : ClusterInfo) : List Char :=
  "  • [".data ++ escape_markdown_v2 (a.title.take 100) ++ "](".data
    ++ pyStrip a.link ++ ")\n".data
    ++ "    _via ".data ++ escape_markdown_v2 (a.source.take 30) ++ "_\n\n".data

/-- One multi-article cluster block (logic.py lines 189-218): bold escaped
cluster title (truncated to 120), up to 5 article line pairs, a
"...and N more related articles" note past 5, and a 35-dash separator. -/
def renderCluster (cluster_title : List Char) (articles : List ClusterInfo) : List Char :=
  let base := "*".data ++ escape_markdown_v2 (cluster_title.take 120) ++ "*\n\n".data
    ++ ((articles.take 5).map renderArticle).flatten
  let withMore :=
    if articles.length > 5 then
      base ++ "  _\\.\\.\\.and ".data ++ (Nat.repr (articles.length - 5)).data
        ++ " more related articles_\n\n".data
    else base
  withMore ++ List.replicate 35 '─' ++ "\n\n".data

/-- The trailing singles section (logic.py lines 228-247): heading "Mixed
Articles", up to 10 singleton articles, a "...and N more articles" note
past 10, and the separator. -/
def renderSingles (arts : List ClusterInfo) : List Char :=
  let base := "*".data ++ escape_markdown_v2 ("Mixed Articles".data) ++ "*\n\n".data
    ++ ((arts.take 10).map renderArticle).flatten
  let withMore :=
    if arts.length > 10 then
      base ++ "  _\\.\\.\\.and ".data ++ (Nat.repr (arts.length - 10)).data
        ++ " more articles_\n\n".data
    else base
  withMore ++ List.replicate 35 '─' ++ "\n\n".data

/-- Stable descending insertion by member count: an element moves ahead
only of strictly smaller clusters, so equal counts keep their order. -/
def insertDesc (x : Nat × List ClusterInfo) :
    List (Nat × List ClusterInfo) → List (Nat × List ClusterInfo)
  | [] => [x]
  | y :: rest =>
    if y.2.length < x.2.length then x :: y :: rest else y :: insertDesc x rest

/-- The sort of logic.py line 168: clusters ordered by member count
descending.  Python `sorted(..., key=len, reverse=True)` is stable, and a
stable sort under a total preorder is unique, so stable insertion sort
reproduces it. -/
def sortClusters (clusters : List (Nat × List ClusterInfo)) : List (Nat × List ClusterInfo) :=
  clusters.foldr insertDesc []

/-- The multi-article clusters (logic.py lines 169-171): each paired with
its first member's title, in sorted order. -/
def multiClustersOf (clusters : List (Nat × List ClusterInfo)) :
    List (List Char × List ClusterInfo) :=
  (sortClusters clusters).filterMap (fun p =>
    match p.2 with
    | a :: b :: rest => some (a.title, a :: b :: rest)
    | _ => none)

/-- The singleton clusters' single members (logic.py lines 172-174), in
sorted order. -/
def singlesOf (clusters : List (Nat × List ClusterInfo)) : List ClusterInfo :=
  (sortClusters clusters).filterMap (fun p =>
    match p.2 with
    | [a] => some a
    | _ => none)

/-- The pagination step (logic.py lines 221-225 and 249-253): if appending
the block would push the buffer past 3900 characters, close the current
page and start a new one holding the block (the header is empty). -/
def pageStep (st : List (List Char) × List Char) (block : List Char) :
    List (List Char) × List Char :=
  if (st.2 ++ block).length > 3900 then (st.1 ++ [st.2], block)
  else (st.1, st.2 ++ block)

/-- The rendered blocks of the first `max_clusters` multi-article clusters,
in sorted order (the loop of logic.py lines 186-218). -/
def formatBlocks (clusters : List (Nat × List ClusterInfo)) (max_clusters : Nat) :
    List (List Char) :=
  ((multiClustersOf clusters).take max_clusters).map (fun p => renderCluster p.1 p.2)

/-- (messages, current_message) after the multi-article loop of logic.py
lines 186-225, starting from no closed pages and an empty buffer. -/
def formatState (clusters : List (Nat × List ClusterInfo)) (max_clusters : Nat) :
    List (List Char) × List Char :=
  (formatBlocks clusters max_clusters).foldl pageStep ([], [])

/-- (messages, current_message) after the singles section of logic.py lines
228-253: nothing happens when there is no singleton cluster, otherwise the
singles block goes through the same length check. -/
def formatState2 (clusters : List (Nat × List ClusterInfo)) (max_clusters : Nat) :
    List (List Char) × List Char :=
  match singlesOf clusters with
  | [] => formatState clusters max_clusters
  | a :: rest => pageStep (formatState clusters max_clusters) (renderSingles (a :: rest))

/-- `format_clusters_for_telegram` (logic.py lines 164-273): the early
placeholder when no cluster has more than one article, then the paginated
pages with the final non-empty buffer pushed last, then the fallback
placeholder for an empty page list. -/
def format_clusters_for_telegram (clusters : List (Nat × List ClusterInfo))
    (max_clusters : Nat) : List (List Char) :=
  if (multiClustersOf clusters).isEmpty then ["No clustered news found\\.".data]
  else
    let msgs :=
      if (formatState2 clusters max_clusters).2 = []
      then (formatState2 clusters max_clusters).1
      else (formatState2 clusters max_clusters).1 ++ [(formatState2 clusters max_clusters).2]
    if msgs.isEmpty then ["No news found for your query\\.".data] else msgs

theorem pageStep_bound (st : List (List Char) × List Char) (b : List Char)
    (h1 : ∀ m ∈ st.1, m.length ≤ 3900) (h2 : st.2.length ≤ 3900)
    (hb : b.length ≤ 3900) :
    (∀ m ∈ (pageStep st b).1, m.length ≤ 3900) ∧ (pageStep st b).2.length ≤ 3900 := by
  by_cases hc : (st.2 ++ b).length > 3900
  · simp only [pageStep, if_pos hc]
    refine ⟨fun m hm => ?_, hb⟩
    rcases List.mem_append.mp hm with h | h
    · exact h1 m h
    · rw [List.mem_singleton.mp h]; exact h2
  · simp only [pageStep, if_neg hc]
    exact ⟨h1, Nat.le_of_not_lt hc⟩

theorem foldl_pageStep_bound (blocks : List (List Char)) :
    ∀ st : List (List Char) × List Char,
      (∀ m ∈ st.1, m.length ≤ 3900) → st.2.length ≤ 3900 →
      (∀ b ∈ blocks, b.length ≤ 3900) →
      (∀ m ∈ (blocks.foldl pageStep st).1, m.length ≤ 3900)
        ∧ (blocks.foldl pageStep st).2.length ≤ 3900 := by
  induction blocks with
  | nil => intro st h1 h2 _; exact ⟨h1, h2⟩
  | cons b rest ih =>
    intro st h1 h2 hb
    rw [List.foldl_cons]
    have hs := pageStep_bound st b h1 h2 (hb b (List.mem_cons_self _ _))
    exact ih _ hs.1 hs.2 (fun x hx => hb x (List.mem_cons_of_mem _ hx))

theorem formatState2_bound (clusters : List (Nat × List ClusterInfo)) (max_clusters : Nat)
    (hmulti : ∀ p ∈ multiClustersOf clusters, (renderCluster p.1 p.2).length ≤ 3900)
    (hsingle : (renderSingles (singlesOf clusters)).length ≤ 3900) :
    (∀ m ∈ (formatState2 clusters max_clusters).1, m.length ≤ 3900)
      ∧ (formatState2 clusters max_clusters).2.length ≤ 3900 := by
  have hblocks : ∀ b ∈ formatBlocks clusters max_clusters, b.length ≤ 3900 := by
    intro b hbm
    rcases List.mem_map.mp hbm with ⟨p, hp, rfl⟩
    exact hmulti p (List.take_subset _ _ hp)
  have hst := foldl_pageStep_bound (formatBlocks clusters max_clusters) ([], [])
    (by intro m hm; simp at hm) (by simp) hblocks
  unfold formatState2
  cases hs : singlesOf clusters with
  | nil => exact hst
  | cons a rest =>
    rw [hs] at hsingle
    exact pageStep_bound _ _ hst.1 hst.2 hsingle

/-- C1 (amended): provided every rendered multi-article block and the
singles block are each at most 3900 characters long (in particular when
article links are short enough — links are embedded untruncated), every
page returned by `format_clusters_for_telegram` has length at most 3900.
Without this proviso the bound fails: see the counterexample theorem. -/
theorem format_clusters_page_bound (clusters : List (Nat × List ClusterInfo))
    (max_clusters : Nat)
    (hmulti : ∀ p ∈ multiClustersOf clusters, (renderCluster p.1 p.2).length ≤ 3900)
    (hsingle : (renderSingles (singlesOf clusters)).length ≤ 3900) :
    ∀ page ∈ format_clusters_for_telegram clusters max_clusters, page.length ≤ 3900 := by
  intro page hp
  have hkey := formatState2_bound clusters max_clusters hmulti hsingle
  simp only [format_clusters_for_telegram] at hp
  split at hp
  · rw [List.mem_singleton.mp hp]; decide
  · split at hp
    · split at hp
      · rw [List.mem_singleton.mp hp]; decide
      · exact hkey.1 page hp
    · split at hp
      · rw [List.mem_singleton.mp hp]; decide
      · rcases List.mem_append.mp hp with h | h
        · exact hkey.1 page h
        · rw [List.mem_singleton.mp h]; exact hkey.2

/-- A 2000-character link. -/
def longLink : List Char := List.replicate 2000 'a'

/-- An article whose link is 2000 characters long: the formatter embeds
links untruncated, so its rendered block exceeds the 3900 budget. -/
def cexArticle : ClusterInfo := ⟨[], longLink, [], []⟩

/-- A clusters mapping with one two-article cluster of long-link articles. -/
def cexClusters : List (Nat × List ClusterInfo) := [(0, [cexArticle, cexArticle])]

theorem escape_markdown_v2_nil : escape_markdown_v2 [] = [] := by decide

theorem pyStrip_longLink : pyStrip longLink = longLink := by
  have h : ∀ m : Nat, List.dropWhile Char.isWhitespace (List.replicate (m + 1) 'a')
      = List.replicate (m + 1) 'a' := by
    intro m
    rw [List.replicate_succ, List.dropWhile_cons, if_neg (by decide)]
  show pyStrip (List.replicate (1999 + 1) 'a') = List.replicate (1999 + 1) 'a'
  unfold pyStrip
  rw [h, List.reverse_replicate, h, List.reverse_replicate]

theorem renderArticle_cex_length : (renderArticle cexArticle).length = 2021 := by
  have h1 : cexArticle.title = [] := rfl
  have h2 : cexArticle.link = longLink := rfl
  have h3 : cexArticle.source = [] := rfl
  unfold renderArticle
  rw [h1, h2, h3, List.take_nil, List.take_nil, escape_markdown_v2_nil, pyStrip_longLink]
  simp only [List.length_append, List.length_nil, longLink, List.length_replicate]
  rfl

theorem renderCluster_cex_length :
    (renderCluster [] [cexArticle, cexArticle]).length = 4083 := by
  simp only [renderCluster, List.take_nil, escape_markdown_v2_nil]
  rw [if_neg (by decide)]
  rw [show ([cexArticle, cexArticle].take 5).map renderArticle
      = [renderArticle cexArticle, renderArticle cexArticle] from rfl]
  rw [show [renderArticle cexArticle, renderArticle cexArticle].flatten
      = renderArticle cexArticle ++ (renderArticle cexArticle ++ []) from rfl]
  simp only [List.length_append, List.length_replicate, List.length_nil,
    renderArticle_cex_length]
  rfl

theorem renderCluster_cex_ne_nil : renderCluster [] [cexArticle, cexArticle] ≠ [] := by
  intro h
  have := renderCluster_cex_length
  rw [h] at this
  simp at this

theorem format_cex_eval :
    format_clusters_for_telegram cexClusters 10
      = [[], renderCluster [] [cexArticle, cexArticle]] := by
  have hmc : multiClustersOf cexClusters = [([], [cexArticle, cexArticle])] := rfl
  have hs : singlesOf cexClusters = [] := rfl
  have hb : formatBlocks cexClusters 10 = [renderCluster [] [cexArticle, cexArticle]] := by
    rw [formatBlocks, hmc]
    rfl
  have hst : formatState cexClusters 10
      = ([[]], renderCluster [] [cexArticle, cexArticle]) := by
    rw [formatState, hb, List.foldl_cons, List.foldl_nil, pageStep]
    rw [if_pos (by rw [List.nil_append, renderCluster_cex_length]; norm_num)]
    rfl
  have hst2 : formatState2 cexClusters 10
      = ([[]], renderCluster [] [cexArticle, cexArticle]) := by
    simp only [formatState2, hs, hst]
  simp only [format_clusters_for_telegram, hmc, hst2]
  rw [if_neg (by decide), if_neg renderCluster_cex_ne_nil, if_neg (by decide)]
  rfl

/-- C1 counterexample: on `cexClusters` the formatter returns a page longer
than 3900 characters (the oversized block is pushed as a page of its own,
after an empty page), so the pagination bound fails as the claim states
it. -/
theorem format_clusters_page_overflow :
    ∃ p ∈ format_clusters_for_telegram cexClusters 10, 3900 < p.length := by
  rw [format_cex_eval]
  exact ⟨renderCluster [] [cexArticle, cexArticle], by simp,
    by rw [renderCluster_cex_length]; norm_num⟩

/-- A concrete short-field article for the formatter witness. -/
def wArticle : ClusterInfo :=
  ⟨"Rain expected tomorrow!".data, "http://ex.com/1".data, [], "Src".data⟩

/-- A concrete clusters mapping: one two-article cluster and one singleton. -/
def wClusters : List (Nat × List ClusterInfo) :=
  [(0, [wArticle, wArticle]), (1, [wArticle])]

/-- C1 witness: at the concrete input `wClusters` both block-size
hypotheses hold and every returned page is at most 3900 characters. -/
theorem format_clusters_page_bound_case :
    (format_clusters_for_telegram wClusters 10).all
      (fun p => decide (p.length ≤ 3900)) = true :=
  List.all_eq_true.mpr (fun p hp => decide_eq_true
    (format_clusters_page_bound wClusters 10 (by decide) (by decide) p hp))

/-- C9: `format_clusters_for_telegram` never returns an empty sequence of
messages, and on the empty clusters mapping (no multi-article cluster) it
returns exactly the escaped "No clustered news found." placeholder. -/
theorem format_clusters_nonempty (clusters : List (Nat × List ClusterInfo))
    (max_clusters : Nat) :
    format_clusters_for_telegram clusters max_clusters ≠ []
    ∧ format_clusters_for_telegram [] max_clusters
        = ["No clustered news found\\.".data] := by
  constructor
  · simp only [format_clusters_for_telegram]
    split
    · simp
    · split <;> split <;> simp_all [List.isEmpty_iff]
  · rfl

/-- Average-linkage distance between two clusters of entry indices under a
distance matrix `D` (glossary: the average pairwise distance between
members). -/
def avgDist (D : Nat → Nat → ℚ) (A B : List Nat) : ℚ :=
  ((A.map (fun a => (B.map (fun b => D a b)).sum)).sum) / ((A.length : ℚ) * (B.length : ℚ))

/-- All position pairs (i, j) with i < j < n, in lexicographic order. -/
def pairList (n : Nat) : List (Nat × Nat) :=
  (List.range n).flatMap (fun i =>
    (((List.range n).filter (fun j => decide (i < j))).map (fun j => (i, j))))

/-- The pair of cluster positions with minimal average-linkage distance,
lexicographically first among ties (spec 4.4: deterministic tie-break),
with its distance; `none` when fewer than two clusters remain.  `bestStep`
keeps the incumbent unless the candidate pair is strictly closer. -/
def bestStep (D : Nat → Nat → ℚ) (cs : List (List Nat))
    (best : Option (ℚ × Nat × Nat)) (p : Nat × Nat) : Option (ℚ × Nat × Nat) :=
  let d := avgDist D (cs.getD p.1 []) (cs.getD p.2 [])
  match best with
  | none => some (d, p.1, p.2)
  | some q => if d < q.1 then some (d, p.1, p.2) else some q

/-- The closest pair under `bestStep`, scanning all position pairs. -/
def bestPair (D : Nat → Nat → ℚ) (cs : List (List Nat)) : Option (ℚ × Nat × Nat) :=
  (pairList cs.length).foldl (bestStep D cs) none

/-- Merge the clusters at positions i < j: the union replaces position i
and position j disappears. -/
def mergeAt (cs : List (List Nat)) (i j : Nat) : List (List Nat) :=
  cs.take i ++ (cs.getD i [] ++ cs.getD j [])
    :: ((cs.drop (i + 1)).take (j - i - 1) ++ cs.drop (j + 1))

/-- One step of agglomerative clustering: merge the closest pair while its
linkage distance stays strictly below the cutoff, else stop (spec 4.4:
"two items may merge only while their linkage distance stays below this
cutoff"; scikit-learn merges only at distance < distance_threshold). -/
def aggloStep (D : Nat → Nat → ℚ) (cutoff : ℚ) (cs : List (List Nat)) :
    Option (List (List Nat)) :=
  (bestPair D cs).bind (fun q =>
    if q.1 < cutoff then some (mergeAt cs q.2.1 q.2.2) else none)

/-- Fuelled merge loop (each merge reduces the cluster count, so `n` steps
always suffice). -/
def aggloLoop (D : Nat → Nat → ℚ) (cutoff : ℚ) : Nat → List (List Nat) → List (List Nat)
  | 0, cs => cs
  | fuel + 1, cs =>
    match aggloStep D cutoff cs with
    | none => cs
    | some cs2 => aggloLoop D cutoff fuel cs2

/-- Modelled from the spec: hierarchical agglomerative clustering with
average linkage and a distance cutoff over `n` items (spec 4.4 and 9; the
implementation delegates to scikit-learn's AgglomerativeClustering, which
is not part of this repository).  Starts from singleton clusters and
merges while the minimal average-linkage distance is below the cutoff. -/
def agglomerative_clusters (D : Nat → Nat → ℚ) (n : Nat) (cutoff : ℚ) : List (List Nat) :=
  aggloLoop D cutoff n ((List.range n).map (fun i => [i]))

/-- The member index lists of the clusters over `n` titles at a similarity
threshold: distance = 1 − similarity, cutoff = 1 − threshold (logic.py
lines 109-118), and each cluster's members are listed in input order (the
grouping loop of lines 120-129 walks the labels in input order). -/
def clusterMembers (sim : Nat → Nat → ℚ) (threshold : ℚ) (n : Nat) : List (List Nat) :=
  (agglomerative_clusters (fun i j => 1 - sim i j) n (1 - threshold)).map
    (fun c => (List.range n).filter (fun i => decide (i ∈ c)))

/-- The per-article record built at logic.py lines 74-79 / 123-128. -/
def infoOf (e : Entry) : ClusterInfo :=
  ⟨e.title, e.link, e.published, e.source.getD ("Unknown".data)⟩

/-- `cluster_news_titles_tfidf` (logic.py lines 89-131): empty input
short-circuits to the empty mapping (line 91-92); otherwise the TF-IDF
cosine similarity matrix — scikit-learn floating-point code, supplied here
as the oracle `sim` — is clustered and the entries grouped by label. -/
def cluster_news_titles_tfidf (sim : Nat → Nat → ℚ) (threshold : ℚ)
    (feeds : List Entry) : List (List ClusterInfo) :=
  if feeds.isEmpty then []
  else
    (clusterMembers sim threshold feeds.length).map
      (fun ms => ms.map (fun i => infoOf (feeds.getD i default)))

/-- `cluster_news_titles` (logic.py lines 45-86): empty input
short-circuits (lines 47-48); otherwise the sentence-transformer cosine
similarity matrix — library code, supplied as the oracle `sim` — goes
through the identical clustering and grouping steps (lines 59-82). -/
def cluster_news_titles (sim : Nat → Nat → ℚ) (threshold : ℚ)
    (feeds : List Entry) : List (List ClusterInfo) :=
  cluster_news_titles_tfidf sim threshold feeds

/-- Modelled from the code's import semantics: `src/logic.py` line 3 runs
`from sentence_transformers import SentenceTransformer` at module level, so
when the package is unavailable the whole module fails to import and none
of its functions — including the `except ImportError` fallback at lines
84-86 — can ever run. -/
def import_src_logic (sentence_transformers_available : Bool) :
    Option ((Nat → Nat → ℚ) → ℚ → List Entry → List (List ClusterInfo)) :=
  if sentence_transformers_available then some cluster_news_titles else none

/-- C6 (code bug): when the semantic encoder package is unavailable the
module import fails, so `cluster_news_titles` is unreachable and no
transparent TF-IDF fallback can happen; the fallback handler is live only
when the package imports fine. -/
theorem import_src_logic_no_fallback :
    import_src_logic false = none
    ∧ import_src_logic true = some cluster_news_titles :=
  ⟨rfl, rfl⟩

theorem pairList_mem (n : Nat) (p : Nat × Nat) (hp : p ∈ pairList n) :
    p.1 < p.2 ∧ p.2 < n := by
  simp only [pairList, List.mem_flatMap, List.mem_map, List.mem_filter, List.mem_range,
    decide_eq_true_eq] at hp
  rcases hp with ⟨i, _, j, ⟨hj, hij⟩, rfl⟩
  exact ⟨hij, hj⟩

theorem foldl_bestStep_bounds (D : Nat → Nat → ℚ) (cs : List (List Nat))
    (l : List (Nat × Nat)) :
    (∀ p ∈ l, p.1 < p.2 ∧ p.2 < cs.length) →
    ∀ acc : Option (ℚ × Nat × Nat),
      (∀ d i j, acc = some (d, i, j) → i < j ∧ j < cs.length) →
      ∀ d i j, l.foldl (bestStep D cs) acc = some (d, i, j) → i < j ∧ j < cs.length := by
  induction l with
  | nil => intro _ acc hacc d i j h; exact hacc d i j h
  | cons p rest ih =>
    intro hl acc hacc d i j h
    rw [List.foldl_cons] at h
    refine ih (fun q hq => hl q (List.mem_cons_of_mem _ hq)) _ ?_ d i j h
    intro d1 i1 j1 h1
    rcases acc with _ | q
    · simp only [bestStep, Option.some.injEq] at h1
      rcases h1 with ⟨_, rfl, rfl⟩
      exact hl p (List.mem_cons_self _ _)
    · simp only [bestStep] at h1
      split at h1
      · simp only [Option.some.injEq] at h1
        rcases h1 with ⟨_, rfl, rfl⟩
        exact hl p (List.mem_cons_self _ _)
      · simp only [Option.some.injEq] at h1
        exact hacc d1 i1 j1 (by rw [h1])

theorem bestPair_bounds (D : Nat → Nat → ℚ) (cs : List (List Nat)) (d : ℚ) (i j : Nat)
    (h : bestPair D cs = some (d, i, j)) : i < j ∧ j < cs.length := by
  refine foldl_bestStep_bounds D cs (pairList cs.length)
    (fun p hp => pairList_mem _ p hp) none ?_ d i j h
  intro d0 i0 j0 h0
  exact absurd h0 (by simp)

theorem cluster_decomp (cs : List (List Nat)) (i j : Nat) (hij : i < j)
    (hj : j < cs.length) :
    cs = cs.take i ++ cs.getD i []
      :: ((cs.drop (i + 1)).take (j - i - 1) ++ cs.getD j [] :: cs.drop (j + 1)) := by
  have hi : i < cs.length := lt_trans hij hj
  conv_lhs => rw [← List.take_append_drop i cs]
  congr 1
  rw [List.drop_eq_getElem_cons hi, List.getD_eq_getElem cs [] hi]
  congr 1
  conv_lhs => rw [← List.take_append_drop (j - i - 1) (cs.drop (i + 1))]
  congr 1
  rw [List.drop_drop]
  have harith : i + 1 + (j - i - 1) = j := by omega
  rw [harith, List.drop_eq_getElem_cons hj, List.getD_eq_getElem cs [] hj]

theorem perm_swap_middle {α : Type} (A B M R : List α) :
    List.Perm ((A ++ B) ++ (M ++ R)) (A ++ (M ++ (B ++ R))) := by
  have h := (@List.perm_append_comm _ B M).append_right R
  have h2 := h.append_left A
  simpa [List.append_assoc] using h2

theorem mergeAt_flatten_perm (cs : List (List Nat)) (i j : Nat) (hij : i < j)
    (hj : j < cs.length) :
    List.Perm (mergeAt cs i j).flatten cs.flatten := by
  conv_rhs => rw [cluster_decomp cs i j hij hj]
  unfold mergeAt
  simp only [List.flatten_append, List.flatten_cons]
  exact (perm_swap_middle (cs.getD i []) (cs.getD j [])
    ((cs.drop (i + 1)).take (j - i - 1)).flatten (cs.drop (j + 1)).flatten).append_left
    (cs.take i).flatten

theorem mergeAt_coarsens (cs : List (List Nat)) (i j : Nat) (hij : i < j)
    (hj : j < cs.length) (c : List Nat) (hc : c ∈ cs) :
    ∃ c2 ∈ mergeAt cs i j, c ⊆ c2 := by
  rw [cluster_decomp cs i j hij hj] at hc
  unfold mergeAt
  simp only [List.mem_append, List.mem_cons] at hc
  rcases hc with h | h | h | h | h
  · exact ⟨c, by simp [List.mem_append, h], fun x hx => hx⟩
  · refine ⟨cs.getD i [] ++ cs.getD j [], by simp, ?_⟩
    rw [h]
    exact List.subset_append_left _ _
  · exact ⟨c, by simp [List.mem_append, h], fun x hx => hx⟩
  · refine ⟨cs.getD i [] ++ cs.getD j [], by simp, ?_⟩
    rw [h]
    exact List.subset_append_right _ _
  · exact ⟨c, by simp [List.mem_append, h], fun x hx => hx⟩

theorem aggloStep_some (D : Nat → Nat → ℚ) (cutoff : ℚ) (cs cs2 : List (List Nat))
    (h : aggloStep D cutoff cs = some cs2) :
    ∃ d i j, bestPair D cs = some (d, i, j) ∧ d < cutoff ∧ cs2 = mergeAt cs i j
      ∧ i < j ∧ j < cs.length := by
  unfold aggloStep at h
  cases hbp : bestPair D cs with
  | none => rw [hbp] at h; exact absurd h (by simp)
  | some q =>
    rw [hbp, Option.some_bind] at h
    by_cases hd : q.1 < cutoff
    · rw [if_pos hd] at h
      have hb := bestPair_bounds D cs q.1 q.2.1 q.2.2 (hbp.trans rfl)
      exact ⟨q.1, q.2.1, q.2.2, rfl, hd, ((Option.some.injEq _ _).mp h).symm, hb.1, hb.2⟩
    · rw [if_neg hd] at h
      exact absurd h (by simp)

theorem aggloLoop_flatten_perm (D : Nat → Nat → ℚ) (cutoff : ℚ) :
    ∀ fuel cs, List.Perm (aggloLoop D cutoff fuel cs).flatten cs.flatten := by
  intro fuel
  induction fuel with
  | zero => intro cs; exact List.Perm.refl _
  | succ n ih =>
    intro cs
    rw [aggloLoop]
    cases hstep : aggloStep D cutoff cs with
    | none => exact List.Perm.refl _
    | some cs2 =>
      obtain ⟨d, i, j, _, _, rfl, hij, hj⟩ := aggloStep_some D cutoff cs cs2 hstep
      exact (ih _).trans (mergeAt_flatten_perm cs i j hij hj)

theorem aggloLoop_coarsens (D : Nat → Nat → ℚ) (cutoff : ℚ) :
    ∀ fuel cs c, c ∈ cs → ∃ c2 ∈ aggloLoop D cutoff fuel cs, c ⊆ c2 := by
  intro fuel
  induction fuel with
  | zero => intro cs c hc; exact ⟨c, hc, fun x hx => hx⟩
  | succ n ih =>
    intro cs c hc
    rw [aggloLoop]
    cases hstep : aggloStep D cutoff cs with
    | none => exact ⟨c, hc, fun x hx => hx⟩
    | some cs2 =>
      obtain ⟨d, i, j, _, _, rfl, hij, hj⟩ := aggloStep_some D cutoff cs cs2 hstep
      obtain ⟨cm, hcm, hsub⟩ := mergeAt_coarsens cs i j hij hj c hc
      obtain ⟨c2, hc2, hsub2⟩ := ih (mergeAt cs i j) cm hcm
      exact ⟨c2, hc2, hsub.trans hsub2⟩

theorem aggloLoop_refines (D : Nat → Nat → ℚ) (cut1 cut2 : ℚ) (hc : cut2 ≤ cut1) :
    ∀ fuel cs c, c ∈ aggloLoop D cut2 fuel cs →
      ∃ c2 ∈ aggloLoop D cut1 fuel cs, c ⊆ c2 := by
  intro fuel
  induction fuel with
  | zero => intro cs c h; exact ⟨c, h, fun x hx => hx⟩
  | succ n ih =>
    intro cs c h
    rw [aggloLoop] at h
    cases hstep : aggloStep D cut2 cs with
    | none =>
      rw [hstep] at h
      exact aggloLoop_coarsens D cut1 (n + 1) cs c h
    | some cs2 =>
      rw [hstep] at h
      obtain ⟨d, i, j, hbp, hd, rfl, hij, hj⟩ := aggloStep_some D cut2 cs cs2 hstep
      have hstep1 : aggloStep D cut1 cs = some (mergeAt cs i j) := by
        unfold aggloStep
        rw [hbp, Option.some_bind, if_pos (lt_of_lt_of_le hd hc)]
      rw [aggloLoop, hstep1]
      exact ih _ c h

/-- C5: both clustering variants return the empty mapping on an empty entry
list, and on a one-entry list both return a single singleton cluster
holding that entry's record, with no failure (the functions are total). -/
theorem cluster_news_titles_degenerate (sim : Nat → Nat → ℚ) (threshold : ℚ) (e : Entry) :
    cluster_news_titles sim threshold [] = []
    ∧ cluster_news_titles_tfidf sim threshold [] = []
    ∧ cluster_news_titles sim threshold [e] = [[infoOf e]]
    ∧ cluster_news_titles_tfidf sim threshold [e] = [[infoOf e]] :=
  ⟨rfl, rfl, rfl, rfl⟩

/-- C7: at a stricter (higher) similarity threshold every cluster of entry
indices is contained in some cluster of the lower-threshold run on the
same similarity matrix, and in particular is no larger than it. -/
theorem cluster_threshold_monotone (sim : Nat → Nat → ℚ) (n : Nat) (t1 t2 : ℚ)
    (h0 : 0 < t1) (h12 : t1 < t2) (h21 : t2 ≤ 1) :
    ∀ c ∈ clusterMembers sim t2 n, ∃ c2 ∈ clusterMembers sim t1 n,
      c ⊆ c2 ∧ c.length ≤ c2.length := by
  intro c hc
  simp only [clusterMembers, agglomerative_clusters, List.mem_map] at hc
  rcases hc with ⟨K, hK, rfl⟩
  have hcut : (1 - t2 : ℚ) ≤ 1 - t1 := by linarith
  obtain ⟨K2, hK2, hsub⟩ :=
    aggloLoop_refines (fun i j => 1 - sim i j) (1 - t1) (1 - t2) hcut n _ K hK
  have hsubf : ((List.range n).filter (fun i => decide (i ∈ K)))
      ⊆ ((List.range n).filter (fun i => decide (i ∈ K2))) := by
    intro x hx
    simp only [List.mem_filter, decide_eq_true_eq] at hx ⊢
    exact ⟨hx.1, hsub hx.2⟩
  refine ⟨(List.range n).filter (fun i => decide (i ∈ K2)), ?_, hsubf, ?_⟩
  · simp only [clusterMembers, agglomerative_clusters, List.mem_map]
    exact ⟨K2, hK2, rfl⟩
  · exact (((List.nodup_range n).filter _).subperm hsubf).length_le

/-- A constant similarity matrix: every pair of titles fully similar. -/
def wSim : Nat → Nat → ℚ := fun _ _ => 1

/-- Under `wSim` the two titles are at distance 0, so any threshold below 1
merges them into the single cluster [0, 1]. -/
theorem clusterMembers_wSim_two (t : ℚ) (ht : t < 1) :
    clusterMembers wSim t 2 = [[0, 1]] := by
  have hD : avgDist (fun i j => 1 - wSim i j) [0] [1] = 0 := by
    simp [avgDist, wSim]
  have hbp : bestPair (fun i j => 1 - wSim i j) [[0], [1]] = some (0, 0, 1) := by
    unfold bestPair
    rw [show pairList ([[0], [1]] : List (List Nat)).length = [(0, 1)] from rfl,
      List.foldl_cons, List.foldl_nil]
    unfold bestStep
    rw [show (([[0], [1]] : List (List Nat)).getD 0 []) = [0] from rfl,
      show (([[0], [1]] : List (List Nat)).getD 1 []) = [1] from rfl, hD]
  have hstep : aggloStep (fun i j => 1 - wSim i j) (1 - t) [[0], [1]] = some [[0, 1]] := by
    unfold aggloStep
    rw [hbp, Option.some_bind, if_pos (show (0 : ℚ) < 1 - t by linarith)]
    rfl
  have hstep2 : aggloStep (fun i j => 1 - wSim i j) (1 - t) [[0, 1]] = none := by
    unfold aggloStep
    rw [show bestPair (fun i j => 1 - wSim i j) [[0, 1]] = none from rfl]
    rfl
  have hloop : aggloLoop (fun i j => 1 - wSim i j) (1 - t) 2 [[0], [1]] = [[0, 1]] := by
    rw [show (2 : Nat) = 1 + 1 from rfl, aggloLoop, hstep]
    show aggloLoop (fun i j => 1 - wSim i j) (1 - t) 1 [[0, 1]] = [[0, 1]]
    rw [show (1 : Nat) = 0 + 1 from rfl, aggloLoop, hstep2]
  unfold clusterMembers agglomerative_clusters
  rw [show ((List.range 2).map (fun i => [i]) : List (List Nat)) = [[0], [1]] from rfl,
    hloop]
  rfl

/-- C7 witness: with two fully similar titles, the cluster [0, 1] of the
stricter threshold 3/4 run is contained in a cluster of the 1/2 run. -/
theorem cluster_threshold_monotone_case :
    ∃ c2 ∈ clusterMembers wSim (1 / 2 : ℚ) 2,
      ([0, 1] : List Nat) ⊆ c2 ∧ ([0, 1] : List Nat).length ≤ c2.length :=
  cluster_threshold_monotone wSim 2 (1 / 2) (3 / 4) (by norm_num) (by norm_num)
    (by norm_num) [0, 1]
    (by rw [clusterMembers_wSim_two (3 / 4) (by norm_num)]; exact List.mem_singleton_self _)

theorem flatten_map_singleton (l : List Nat) : (l.map (fun i => [i])).flatten = l := by
  induction l with
  | nil => rfl
  | cons a rest ih => simp [ih]

theorem countP_mem_of_count_flatten (i : Nat) :
    ∀ ls : List (List Nat), ls.flatten.count i ≤ 1 →
      ls.countP (fun c => decide (i ∈ c)) = ls.flatten.count i := by
  intro ls
  induction ls with
  | nil => simp
  | cons c rest ih =>
    intro h
    rw [List.flatten_cons, List.count_append] at h ⊢
    rw [List.countP_cons]
    by_cases hm : i ∈ c
    · have hpos : 0 < c.count i := List.count_pos_iff.mpr hm
      have hc1 : c.count i = 1 := by omega
      have hr0 : rest.flatten.count i = 0 := by omega
      rw [ih (by omega), hr0, hc1]
      simp [hm]
    · have hc0 : c.count i = 0 := List.count_eq_zero.mpr hm
      rw [ih (by omega), hc0]
      simp [hm]

theorem count_filtered_flatten (n a : Nat) :
    ∀ ls : List (List Nat),
      ((ls.map (fun c => (List.range n).filter (fun i => decide (i ∈ c)))).flatten).count a
        = if a < n then ls.countP (fun c => decide (a ∈ c)) else 0 := by
  intro ls
  induction ls with
  | nil => simp
  | cons c rest ih =>
    rw [List.map_cons, List.flatten_cons, List.count_append, ih, List.countP_cons]
    have hterm : ((List.range n).filter (fun i => decide (i ∈ c))).count a
        = if a < n ∧ a ∈ c then 1 else 0 := by
      by_cases hm : a ∈ c
      · by_cases han : a < n
        · rw [List.count_filter (by simp [hm]), if_pos ⟨han, hm⟩]
          exact List.count_eq_one_of_mem (List.nodup_range n) (List.mem_range.mpr han)
        · rw [if_neg (fun hq => han hq.1)]
          refine List.count_eq_zero.mpr (fun hq => han ?_)
          exact List.mem_range.mp (List.mem_filter.mp hq).1
      · rw [if_neg (fun hq => hm hq.2)]
        refine List.count_eq_zero.mpr (fun hq => hm ?_)
        have := (List.mem_filter.mp hq).2
        simpa using this
    rw [hterm]
    by_cases han : a < n
    · by_cases hm : a ∈ c
      · simp [han, hm, Nat.add_comm]
      · simp [han, hm]
    · simp [han]

theorem clusterMembers_flatten_perm (sim : Nat → Nat → ℚ) (threshold : ℚ) (n : Nat) :
    List.Perm (clusterMembers sim threshold n).flatten (List.range n) := by
  have hflat : List.Perm
      (agglomerative_clusters (fun i j => 1 - sim i j) n (1 - threshold)).flatten
      (List.range n) := by
    have h := aggloLoop_flatten_perm (fun i j => 1 - sim i j) (1 - threshold) n
      ((List.range n).map (fun i => [i]))
    rw [flatten_map_singleton] at h
    exact h
  rw [List.perm_iff_count]
  intro a
  rw [clusterMembers, count_filtered_flatten]
  by_cases han : a < n
  · rw [if_pos han]
    have h1 : (agglomerative_clusters (fun i j => 1 - sim i j) n (1 - threshold)).flatten.count a
        = 1 := by
      rw [hflat.count_eq]
      exact List.count_eq_one_of_mem (List.nodup_range n) (List.mem_range.mpr han)
    rw [countP_mem_of_count_flatten a _ (by omega), h1]
    exact (List.count_eq_one_of_mem (List.nodup_range n) (List.mem_range.mpr han)).symm
  · rw [if_neg han]
    exact (List.count_eq_zero.mpr (fun hq => han (List.mem_range.mp hq))).symm

theorem map_getD_range {α β : Type} (d : α) (f : α → β) (l : List α) :
    (List.range l.length).map (fun i => f (l.getD i d)) = l.map f := by
  apply List.ext_getElem
  · simp
  · intro k h1 h2
    simp only [List.getElem_map, List.getElem_range]
    rw [List.getD_eq_getElem]

/-- C8: the clusterer partitions the input.  Over `n` titles the member
index lists of `clusterMembers` contain every index below `n` exactly once
(their concatenation is a permutation of `range n`) and each member list is
in increasing — that is, first-seen input — order; consequently the entry
records in the output of `cluster_news_titles_tfidf` are exactly the input
entries' records, each exactly once. -/
theorem cluster_partition (sim : Nat → Nat → ℚ) (threshold : ℚ) (feeds : List Entry) :
    List.Perm (clusterMembers sim threshold feeds.length).flatten
        (List.range feeds.length)
    ∧ (∀ ms ∈ clusterMembers sim threshold feeds.length,
        ms.Sublist (List.range feeds.length))
    ∧ List.Perm (cluster_news_titles_tfidf sim threshold feeds).flatten
        (feeds.map infoOf) := by
  refine ⟨clusterMembers_flatten_perm sim threshold feeds.length, fun ms hms => ?_, ?_⟩
  · rcases List.mem_map.mp hms with ⟨K, _, rfl⟩
    exact List.filter_sublist _
  · by_cases hfe : feeds.isEmpty
    · rw [cluster_news_titles_tfidf, if_pos hfe]
      rw [List.isEmpty_iff.mp hfe]
      exact List.Perm.refl _
    · rw [cluster_news_titles_tfidf, if_neg hfe]
      rw [← List.map_flatten]
      have hp := (clusterMembers_flatten_perm sim threshold feeds.length).map
        (fun i => infoOf (feeds.getD i default))
      refine hp.trans ?_
      rw [map_getD_range]
